import Mathlib

/-!
Verification of the ingredient-name normalization and matching subsystem of
the ETL repository (OpenFoodFacts × Marmiton).  The Python sources are
shallowly embedded as Lean functions over `List Char` / `String`:

* `MatchIngredients.normalize_ingredient_name`  — scripts/transform/match_ingredients.py
* `LinkIngredients.normalize_ingredient_name`, `LinkIngredients.similarity_ratio`,
  `LinkIngredients.process_off_tag`            — scripts/transform/link_ingredients.py
* `MatchProducts.normalize_ingredient_name`, `MatchProducts.process_tag`
                                               — scripts/transform/match_products_with_ingredients.py
* `MatchRecipes.dedupe_matches`                — scripts/load/match_recipes_with_ingredients.py
* `ScrapeMarmiton.parse_ingredient`            — scripts/extract/scrape_marmiton.py

Python floats are modelled as rationals (all scores are tiny fractions whose
comparisons against the literals 0.75/0.8/1.0 are exact in double precision,
so the rational model agrees with the float code on every comparison proved
here).  Rationals are constructed with `mkRat` rather than `/` so that closed
instances evaluate inside the kernel.
-/

namespace PyStr

/-- Whitespace characters recognised by the Python functions `str.strip`
and `str.split`
(the ASCII ones plus no-break space; ingredient data never contains the more
exotic unicode spaces). -/
def pyWs : List Char := [' ', '\t', '\n', '\r', '\x0b', '\x0c', ' ']

def isSpaceCh (c : Char) : Bool := pyWs.contains c

/-- Case-folding table of Python `str.lower` restricted to the
characters occurring in this pipeline: ASCII letters plus the accented Latin
letters appearing in the French data and in the character classes of the
sources. -/
def lowerPairs : List (Char × Char) :=
  [('A', 'a'), ('B', 'b'), ('C', 'c'), ('D', 'd'), ('E', 'e'), ('F', 'f'),
   ('G', 'g'), ('H', 'h'), ('I', 'i'), ('J', 'j'), ('K', 'k'), ('L', 'l'),
   ('M', 'm'), ('N', 'n'), ('O', 'o'), ('P', 'p'), ('Q', 'q'), ('R', 'r'),
   ('S', 's'), ('T', 't'), ('U', 'u'), ('V', 'v'), ('W', 'w'), ('X', 'x'),
   ('Y', 'y'), ('Z', 'z'),
   ('À', 'à'), ('Â', 'â'), ('Ä', 'ä'), ('É', 'é'), ('È', 'è'), ('Ê', 'ê'),
   ('Ë', 'ë'), ('Ï', 'ï'), ('Î', 'î'), ('Ô', 'ô'), ('Ö', 'ö'), ('Ù', 'ù'),
   ('Û', 'û'), ('Ü', 'ü'), ('Ÿ', 'ÿ'), ('Ç', 'ç'), ('Æ', 'æ'), ('Œ', 'œ')]

def toLowerFr (c : Char) : Char := (lowerPairs.lookup c).getD c

/-- `str.strip()`: drop leading whitespace. -/
def dropLeadWs (l : List Char) : List Char := l.dropWhile isSpaceCh

/-- `str.strip()`: drop trailing whitespace. -/
def dropTrailWs (l : List Char) : List Char := (l.reverse.dropWhile isSpaceCh).reverse

/-- Python `str.strip()`. -/
def stripWs (l : List Char) : List Char := dropTrailWs (dropLeadWs l)

/-- Helper for `wordsOf`: `cur` is the (reversed) word currently being read. -/
def wordsAux : List Char → List Char → List (List Char)
  | [], cur => if cur = [] then [] else [cur.reverse]
  | c :: rest, cur =>
    if isSpaceCh c then
      (if cur = [] then wordsAux rest [] else cur.reverse :: wordsAux rest [])
    else wordsAux rest (c :: cur)

/-- Python `str.split()` (split on whitespace runs, dropping empty pieces). -/
def wordsOf (l : List Char) : List (List Char) := wordsAux l []

/-- Python `' '.join(...)`. -/
def joinWords : List (List Char) → List Char
  | [] => []
  | [w] => w
  | w :: w2 :: ws => w ++ ' ' :: joinWords (w2 :: ws)

/-- Python `name.split(sep, 1)[1]` for a one-character separator that is known
to occur in the string: everything after its first occurrence. -/
def afterFirst (sep : Char) (l : List Char) : List Char :=
  (l.dropWhile (fun c => c != sep)).drop 1

/-- Python substring test `a in b` (contiguous). -/
def startsWithL : List Char → List Char → Bool
  | [], _ => true
  | _ :: _, [] => false
  | c :: cs, d :: ds => c == d && startsWithL cs ds

def isSubstr (a b : List Char) : Bool :=
  match b with
  | [] => a.isEmpty
  | _ :: bs => startsWithL a b || isSubstr a bs

end PyStr

open PyStr

namespace MatchIngredients

/-- `normalize_ingredient_name` from scripts/transform/match_ingredients.py:
empty guard; strip a `lang:` tag prefix at the first colon; lowercase and
strip; replace dashes/underscores by spaces; collapse whitespace runs. -/
def normalizeL (l : List Char) : List Char :=
  if l = [] then []
  else
    let l1 := if l.contains ':' then afterFirst ':' l else l
    let l2 := stripWs (l1.map toLowerFr)
    let l3 := l2.map (fun c => if c = '-' || c = '_' then ' ' else c)
    joinWords (wordsOf l3)

def normalize_ingredient_name (s : String) : String := ⟨normalizeL s.data⟩

end MatchIngredients

namespace LinkIngredients

/-- Does `\s*\(.*?\)\s*$` match the given suffix of the string (the trailing
parenthetical remover in link_ingredients.py)?  `.` does not cross a newline. -/
def parenMatchAt (l : List Char) : Bool :=
  match l.dropWhile isSpaceCh with
  | '(' :: rest =>
    let core := dropTrailWs rest
    match core.getLast? with
    | some ')' => !(core.dropLast.contains '\n')
    | _ => false
  | _ => false

/-- Does `\s*-.*?$` match the given suffix of the string (the trailing
dash-suffix remover in link_ingredients.py)? -/
def dashMatchAt (l : List Char) : Bool :=
  match l.dropWhile isSpaceCh with
  | '-' :: rest => !(rest.contains '\n')
  | _ => false

/-- `re.sub` deleting an end-anchored pattern: delete everything
from the leftmost position where the pattern matches. -/
def cutFromFirst (p : List Char → Bool) : List Char → List Char
  | [] => []
  | c :: rest => if p (c :: rest) then [] else c :: cutFromFirst p rest

/-- The character class `[a-z0-9\sàâäéèêëïîôöùûüÿçæœ]` kept by the final
cleanup substitution. -/
def isKeptChar (c : Char) : Bool :=
  ('a' ≤ c && c ≤ 'z') || ('0' ≤ c && c ≤ '9') || isSpaceCh c ||
    ['à', 'â', 'ä', 'é', 'è', 'ê', 'ë', 'ï', 'î', 'ô', 'ö', 'ù', 'û', 'ü',
     'ÿ', 'ç', 'æ', 'œ'].contains c

/-- `normalize_ingredient_name` from scripts/transform/link_ingredients.py:
lowercase/strip, delete a trailing parenthesised suffix, delete everything
from the first dash on, keep only letters/digits/spaces, collapse spaces. -/
def normalizeL (l : List Char) : List Char :=
  let l1 := stripWs (l.map toLowerFr)
  let l2 := cutFromFirst parenMatchAt l1
  let l3 := cutFromFirst dashMatchAt l2
  let l4 := l3.filter isKeptChar
  joinWords (wordsOf l4)

def normalize_ingredient_name (s : String) : String := ⟨normalizeL s.data⟩

/-- `similarity_ratio` from link_ingredients.py: 0 for an empty operand, 1 for
equal strings, 0.8 when one is a substring of the other, otherwise the
word-set Jaccard overlap `|A ∩ B| / |A ∪ B|`. -/
def similarity_ratio (a b : List Char) : Rat :=
  if a = [] ∨ b = [] then 0
  else if a = b then 1
  else if isSubstr a b || isSubstr b a then mkRat 4 5
  else
    let wa := (wordsOf a).toFinset
    let wb := (wordsOf b).toFinset
    if wa = ∅ ∨ wb = ∅ then 0
    else if 0 < (wa ∪ wb).card then mkRat ((wa ∩ wb).card) ((wa ∪ wb).card)
    else 0

/-- One row of the `ingredient_mappings` table written by
`create_simple_mappings`. -/
structure IngredientMapping where
  off_ingredient_tag : List Char
  marmiton_ingredient_id : Nat
  match_type : String
  confidence : Rat
deriving DecidableEq, Repr

/-- Stable insertion used by `sortByIngredientId` (insert after equal keys,
as a later list element must stay behind earlier equal ones). -/
def insertById (p : List Char × Nat) : List (List Char × Nat) → List (List Char × Nat)
  | [] => [p]
  | q :: qs => if p.2 < q.2 then p :: q :: qs else q :: insertById p qs

/-- The stable Python sort `sorted(marmiton_map.items(), key=lambda x: x[1])`. -/
def sortByIngredientId (m : List (List Char × Nat)) : List (List Char × Nat) :=
  m.foldl (fun acc p => insertById p acc) []

/-- `sorted(marmiton_map.items(), key=lambda x: x[1])[:30]`: the bounded
candidate set of the fuzzy pass. -/
def top30 (m : List (List Char × Nat)) : List (List Char × Nat) :=
  (sortByIngredientId m).take 30

/-- The per-tag body of `create_simple_mappings` in link_ingredients.py:
skip mentions whose normalized form is empty or shorter than 2 characters;
exact dictionary hit emits ("exact", 1.0); otherwise scan the top-30
candidates and emit ("fuzzy", score) for the first one whose
`similarity_ratio` exceeds 0.75. -/
def process_off_tag (m : List (List Char × Nat)) (off_tag : List Char) :
    Option IngredientMapping :=
  let n := normalizeL off_tag
  if n = [] ∨ n.length < 2 then none
  else
    match m.lookup n with
    | some mid => some ⟨off_tag, mid, "exact", 1⟩
    | none =>
      match (top30 m).find? (fun p => decide (mkRat 3 4 < similarity_ratio n p.1)) with
      | some p => some ⟨off_tag, p.2, "fuzzy", similarity_ratio n p.1⟩
      | none => none

end LinkIngredients

namespace MatchIngredients

/-- The per-(product, ingredient) body of `match_products_with_ingredients`
in match_ingredients.py: a tag equal to the normalized ingredient name gives
(1.0, "exact"); otherwise the first tag containing or contained in the
ingredient name gives (0.8, "partial"), but only when the normalized
ingredient name has at least 4 characters. -/
def match_one (product_tags : List (List Char)) (ing_norm : List Char) :
    Option (Rat × String) :=
  if product_tags.contains ing_norm then some (1, "exact")
  else
    match product_tags.find? (fun tag => isSubstr ing_norm tag || isSubstr tag ing_norm) with
    | some _ => if 4 ≤ ing_norm.length then some (mkRat 4 5, "partial") else none
    | none => none

end MatchIngredients

namespace MatchProducts

/-- `normalize_ingredient_name` from
scripts/transform/match_products_with_ingredients.py: lowercase/strip,
collapse whitespace, then strip a `lang:` tag prefix at the first colon. -/
def normalizeL (l : List Char) : List Char :=
  if l = [] then []
  else
    let l1 := joinWords (wordsOf (stripWs (l.map toLowerFr)))
    if l1.contains ':' then afterFirst ':' l1 else l1

def normalize_ingredient_name (s : String) : String := ⟨normalizeL s.data⟩

/-- One row of `product_ingredient_matches` as written by
match_products_with_ingredients.py. -/
structure ProductMatch where
  ingredient_id : Nat
  match_score : Rat
  match_method : String
deriving DecidableEq, Repr

/-- The substring fallback loop (first vocabulary entry whose key contains or
is contained in the normalized tag). -/
def fallback_id (m : List (List Char × Nat)) (n : List Char) : Option Nat :=
  (m.find? (fun p => isSubstr p.1 n || isSubstr n p.1)).map Prod.snd

/-- `ingredient_id` after the exact lookup and the fallback loop; a Python
falsy id (`None` or `0`) fails the `if not ingredient_id` test and triggers
the fallback. -/
def found_id (m : List (List Char × Nat)) (n : List Char) : Option Nat :=
  match m.lookup n with
  | some i => if i = 0 then fallback_id m n else some i
  | none => fallback_id m n

/-- The per-tag body of `match_products_with_ingredients` in
match_products_with_ingredients.py.  Note the emitted score is always 1.0 and
the method is computed from dictionary membership of the normalized tag,
independently of which branch produced the id. -/
def process_tag (m : List (List Char × Nat)) (tag : List Char) :
    Option ProductMatch :=
  let n := normalizeL tag
  if n = [] then none
  else
    match found_id m n with
    | some i =>
      if i = 0 then none
      else some ⟨i, 1, if (m.lookup n).isSome then ("exact") else ("partial")⟩
    | none => none

end MatchProducts

namespace MatchRecipes

/-- One element of `matches_to_insert` in
scripts/load/match_recipes_with_ingredients.py. -/
structure RecipeMatch where
  recipe_id : Nat
  ingredient_id : Nat
  quantity : String
  unit : String
  raw_text : String
deriving DecidableEq, Repr

def dedupKey (r : RecipeMatch) : Nat × Nat := (r.recipe_id, r.ingredient_id)

/-- The deduplication dict loop: `if key not in unique_matches:
unique_matches[key] = record` (Python dicts preserve first-insertion order). -/
def dedupeAux : List RecipeMatch → List (Nat × Nat) → List RecipeMatch
  | [], _ => []
  | r :: rest, seen =>
    if dedupKey r ∈ seen then dedupeAux rest seen
    else r :: dedupeAux rest (dedupKey r :: seen)

/-- `matches_to_insert = list(unique_matches.values())`: collapse records
sharing a (recipe, ingredient) key, keeping the first-seen entry. -/
def dedupe_matches (l : List RecipeMatch) : List RecipeMatch := dedupeAux l []

end MatchRecipes

namespace ScrapeMarmiton

/-!
`parse_ingredient` from scripts/extract/scrape_marmiton.py tries six anchored
regular expressions in order.  Each is compiled here into a deterministic
matcher; wherever the regex engine could backtrack (the optional plural `s`,
the optional `à soupe/café/thé` qualifier, the `de|d\x27` alternation) the
candidates are enumerated in the priority order of the engine.  Greedy
repetitions
(`\d+`, `\s+`, `[a-zA-Zéèàç]+`) are safe to take maximally because the
following token class is always disjoint from the repeated class.
-/

def apos : Char := Char.ofNat 39

def isDigitCh (c : Char) : Bool := '0' ≤ c && c ≤ '9'

/-- The `[a-zA-Zéèàç]` unit character class of patterns 1 and 4 (with
`re.IGNORECASE`, so the uppercase accented letters match too). -/
def isUnitChar (c : Char) : Bool :=
  ('a' ≤ c && c ≤ 'z') || ('A' ≤ c && c ≤ 'Z') ||
    ['é', 'è', 'à', 'ç', 'É', 'È', 'À', 'Ç'].contains c

def digits1 (l : List Char) : Option (List Char × List Char) :=
  let t := l.takeWhile isDigitCh
  if t = [] then none else some (t, l.drop t.length)

def letters1 (l : List Char) : Option (List Char × List Char) :=
  let t := l.takeWhile isUnitChar
  if t = [] then none else some (t, l.drop t.length)

/-- `(\d+(?:[.,]\d+)?)`. -/
def pNumber (l : List Char) : Option (List Char × List Char) := do
  let (d, r) ← digits1 l
  match r with
  | c :: r' =>
    if c = '.' || c = ',' then
      match digits1 r' with
      | some (d2, r'') => some (d ++ c :: d2, r'')
      | none => some (d, r)
    else some (d, r)
  | [] => some (d, [])

/-- `(\d+/\d+)`. -/
def pFraction (l : List Char) : Option (List Char × List Char) := do
  let (d1, r1) ← digits1 l
  match r1 with
  | c :: r2 =>
    if c = '/' then do
      let (d2, r3) ← digits1 r2
      some (d1 ++ c :: d2, r3)
    else none
  | [] => none

/-- `\s+`, dropping the consumed whitespace. -/
def spaces1 (l : List Char) : Option (List Char) :=
  match l with
  | c :: rest => if isSpaceCh c then some (rest.dropWhile isSpaceCh) else none
  | [] => none

/-- `\s+` inside a capture group, keeping the consumed whitespace. -/
def takeSpaces1 (l : List Char) : Option (List Char × List Char) :=
  let t := l.takeWhile isSpaceCh
  if t = [] then none else some (t, l.drop t.length)

/-- Case-insensitive literal (pattern given in lowercase); returns the
consumed input characters and the rest. -/
def pLitCI : List Char → List Char → Option (List Char × List Char)
  | [], l => some ([], l)
  | _ :: _, [] => none
  | p :: ps, c :: l =>
    if toLowerFr c = p then (pLitCI ps l).map (fun q => (c :: q.1, q.2)) else none

/-- `(.+)$` (`.` never crosses a newline; `$` also matches just before one
final trailing newline) followed by the `.strip()` that `parse_ingredient`
applies to the captured name. -/
def pRest (l : List Char) : Option (List Char) :=
  let core := match l.getLast? with
    | some c => if c = '\n' then l.dropLast else l
    | none => l
  if core = [] then none
  else if core.contains '\n' then none
  else some (stripWs core)

/-- The `d\x27` alternative of `(?:de|d\x27)\s+`. -/
def pArticleAp (l : List Char) : Option (List Char) :=
  match l with
  | c1 :: c2 :: rest =>
    if toLowerFr c1 = 'd' ∧ c2 = apos then spaces1 rest else none
  | _ => none

/-- `(?:de|d\x27)\s+`: `de` first, backtracking to `d\x27` when `de` or its
mandatory following whitespace fails. -/
def pArticle (l : List Char) : Option (List Char) :=
  match l with
  | c1 :: c2 :: rest =>
    if toLowerFr c1 = 'd' ∧ toLowerFr c2 = 'e' then
      match spaces1 rest with
      | some r => some r
      | none => pArticleAp l
    else pArticleAp l
  | _ => none

/-- `\s+(?:de|d\x27)\s+(.+)$`, the common tail of patterns 1, 2 and 3. -/
def pTail (l : List Char) : Option (List Char) := do
  let r1 ← spaces1 l
  let r2 ← pArticle r1
  pRest r2

/-- Pattern 1: `^(\d+(?:[.,]\d+)?)\s*([a-zA-Zéèàç]+)\s+(?:de|d\x27)\s+(.+)$`. -/
def pattern1 (l : List Char) : Option (List Char × List Char × List Char) := do
  let (q, r1) ← pNumber l
  let r2 := r1.dropWhile isSpaceCh
  let (u, r3) ← letters1 r2
  let nm ← pTail r3
  some (q, u, nm)

/-- `xs?`-style optional final letter: both parses, greedy one first. -/
def optLast (base : List Char) (last : Char) (l : List Char) :
    List (List Char × List Char) :=
  match pLitCI base l with
  | none => []
  | some (u, r) =>
    match r with
    | c :: r' => if toLowerFr c = last then [(u ++ [c], r'), (u, r)] else [(u, r)]
    | [] => [(u, r)]

/-- `\s+à\s+(?:soupe|café|thé)`, the optional qualifier of `cuillère`. -/
def pPhrase (l : List Char) : Option (List Char × List Char) := do
  let (s1, r1) ← takeSpaces1 l
  let (a, r2) ← pLitCI ['à'] r1
  let (s2, r3) ← takeSpaces1 r2
  let (w, r4) ← pLitCI ['s', 'o', 'u', 'p', 'e'] r3 <|>
    pLitCI ['c', 'a', 'f', 'é'] r3 <|> pLitCI ['t', 'h', 'é'] r3
  some (s1 ++ a ++ s2 ++ w, r4)

/-- `cuillères?(?:\s+à\s+(?:soupe|café|thé))?`: all parses in priority order. -/
def cuillereCands (l : List Char) : List (List Char × List Char) :=
  (optLast ['c', 'u', 'i', 'l', 'l', 'è', 'r', 'e'] 's' l).flatMap
    (fun p =>
      match pPhrase p.2 with
      | some (ph, r) => [(p.1 ++ ph, r), p]
      | none => [p])

/-- The closed cooking-unit alternation of patterns 2 and 3, candidates in
the priority order of the regex engine. -/
def cookUnitCands (l : List Char) : List (List Char × List Char) :=
  cuillereCands l ++
  optLast ['v', 'e', 'r', 'r', 'e'] 's' l ++
  optLast ['s', 'a', 'c', 'h', 'e', 't'] 's' l ++
  optLast ['b', 'o', 'î', 't', 'e'] 's' l ++
  optLast ['b', 'o', 'c', 'a', 'u'] 'x' l ++
  optLast ['t', 'r', 'a', 'n', 'c', 'h', 'e'] 's' l ++
  optLast ['g', 'o', 'u', 's', 's', 'e'] 's' l ++
  optLast ['b', 'r', 'a', 'n', 'c', 'h', 'e'] 's' l ++
  optLast ['f', 'e', 'u', 'i', 'l', 'l', 'e'] 's' l ++
  optLast ['p', 'i', 'n', 'c', 'é', 'e'] 's' l ++
  optLast ['p', 'o', 'i', 'g', 'n', 'é', 'e'] 's' l ++
  optLast ['c', 'u', 'b', 'e'] 's' l ++
  (match pLitCI ['n', 'o', 'i', 'x'] l with
   | some p => [p]
   | none => [])

/-- Pattern 2: `^(\d+(?:[.,]\d+)?)\s+(<cooking unit>)\s+(?:de|d\x27)\s+(.+)$`. -/
def pattern2 (l : List Char) : Option (List Char × List Char × List Char) := do
  let (q, r1) ← pNumber l
  let r2 ← spaces1 r1
  (cookUnitCands r2).findSome? (fun p => (pTail p.2).map (fun nm => (q, p.1, nm)))

/-- Pattern 3: `^(\d+/\d+)\s+(<cooking unit>)\s+(?:de|d\x27)\s+(.+)$`. -/
def pattern3 (l : List Char) : Option (List Char × List Char × List Char) := do
  let (q, r1) ← pFraction l
  let r2 ← spaces1 r1
  (cookUnitCands r2).findSome? (fun p => (pTail p.2).map (fun nm => (q, p.1, nm)))

/-- Pattern 4: `^(\d+(?:[.,]\d+)?)\s*([a-zA-Zéèàç]+)\s+d\x27(.+)$`. -/
def pattern4 (l : List Char) : Option (List Char × List Char × List Char) := do
  let (q, r1) ← pNumber l
  let r2 := r1.dropWhile isSpaceCh
  let (u, r3) ← letters1 r2
  let r4 ← spaces1 r3
  let (_, r5) ← pLitCI ['d'] r4
  match r5 with
  | c :: r6 => if c = apos then (pRest r6).map (fun nm => (q, u, nm)) else none
  | [] => none

/-- Pattern 5: `^(\d+(?:[.,]\d+)?)\s+(.+)$`. -/
def pattern5 (l : List Char) : Option (List Char × List Char) := do
  let (q, r1) ← pNumber l
  let r2 ← spaces1 r1
  (pRest r2).map (fun nm => (q, nm))

/-- Pattern 6: `^(\d+/\d+)\s+(.+)$`. -/
def pattern6 (l : List Char) : Option (List Char × List Char) := do
  let (q, r1) ← pFraction l
  let r2 ← spaces1 r1
  (pRest r2).map (fun nm => (q, nm))

/-- `quantity.replace(',', '.')`. -/
def replComma (q : List Char) : List Char :=
  q.map (fun c => if c = ',' then '.' else c)

/-- The result dict of `parse_ingredient`. -/
structure ParsedIngredient where
  quantity : String
  unit : String
  name : String
  raw : String
deriving DecidableEq, Repr

/-- `parse_ingredient`: try patterns 1–6 in order, first match wins, falling
through to the whole trimmed text as `name` with empty quantity and unit. -/
def parse_ingredient (s : String) : ParsedIngredient :=
  let text := stripWs s.data
  match pattern1 text with
  | some (q, u, nm) => ⟨⟨replComma q⟩, ⟨stripWs u⟩, ⟨nm⟩, ⟨text⟩⟩
  | none =>
    match pattern2 text with
    | some (q, u, nm) => ⟨⟨replComma q⟩, ⟨stripWs u⟩, ⟨nm⟩, ⟨text⟩⟩
    | none =>
      match pattern3 text with
      | some (q, u, nm) => ⟨⟨q⟩, ⟨stripWs u⟩, ⟨nm⟩, ⟨text⟩⟩
      | none =>
        match pattern4 text with
        | some (q, u, nm) => ⟨⟨replComma q⟩, ⟨stripWs u⟩, ⟨nm⟩, ⟨text⟩⟩
        | none =>
          match pattern5 text with
          | some (q, nm) => ⟨⟨replComma q⟩, "", ⟨nm⟩, ⟨text⟩⟩
          | none =>
            match pattern6 text with
            | some (q, nm) => ⟨⟨q⟩, "", ⟨nm⟩, ⟨text⟩⟩
            | none => ⟨"", "", ⟨text⟩, ⟨text⟩⟩

end ScrapeMarmiton

namespace PyDyn

/-- A Python runtime value, as far as the normalizers can observe it: the
claims about exception safety quantify over `None` and non-string values. -/
inductive PyVal where
  | none
  | int (n : Int)
  | str (s : String)
deriving DecidableEq, Repr

/-- Python truthiness for the values above. -/
def falsy : PyVal → Bool
  | .none => true
  | .int n => n == 0
  | .str s => s == ""

/-- match_ingredients.normalize_ingredient_name under Python dynamic typing:
`if not name: return ""` accepts any falsy value, but the next operation
`: in name` (colon membership) raises TypeError on a truthy non-string. -/
def miNormalizeDyn (v : PyVal) : Except String String :=
  if falsy v then .ok ("")
  else
    match v with
    | .str s => .ok (MatchIngredients.normalize_ingredient_name s)
    | _ => .error ("TypeError: argument is not iterable")

/-- link_ingredients.normalize_ingredient_name under Python dynamic typing:
its first operation `name.lower()` raises AttributeError on any non-string
value, including `None`. -/
def liNormalizeDyn : PyVal → Except String String
  | .str s => .ok (LinkIngredients.normalize_ingredient_name s)
  | .none => .error ("AttributeError: NoneType has no attribute lower")
  | .int _ => .error ("AttributeError: int has no attribute lower")

/-- Did the call return normally (no exception)? -/
def isOkB : Except String String → Bool
  | .ok _ => true
  | .error _ => false

end PyDyn

namespace SpecModel

/-- Modelled from the spec: the word-overlap-only (pure Jaccard) scoring
policy, `|intersection| / |union|` of whitespace-split tokens, 0 when either
token set is empty.  Only the substring-containment policy exists in the
source; this comparison policy is taken from the wording of the spec. -/
def word_overlap_score (a b : List Char) : Rat :=
  let wa := (wordsOf a).toFinset
  let wb := (wordsOf b).toFinset
  if wa = ∅ ∨ wb = ∅ then 0
  else mkRat ((wa ∩ wb).card) ((wa ∪ wb).card)

end SpecModel

/-- C5: the ingredient parser satisfies the six canonical round-trip examples
of the specification (quantity, unit, name, and the untouched raw text). -/
theorem C5_parse_ingredient_canonical_examples :
    ScrapeMarmiton.parse_ingredient ("350 g de thon") =
      ⟨"350", "g", "thon", "350 g de thon"⟩ ∧
    ScrapeMarmiton.parse_ingredient ("2 cuillères à soupe de sauce") =
      ⟨"2", "cuillères à soupe", "sauce", "2 cuillères à soupe de sauce"⟩ ∧
    ScrapeMarmiton.parse_ingredient ("1/2 verre de lait") =
      ⟨"1/2", "verre", "lait", "1/2 verre de lait"⟩ ∧
    ScrapeMarmiton.parse_ingredient ("2 oeufs") =
      ⟨"2", "", "oeufs", "2 oeufs"⟩ ∧
    ScrapeMarmiton.parse_ingredient ("1/2 chou-fleur") =
      ⟨"1/2", "", "chou-fleur", "1/2 chou-fleur"⟩ ∧
    ScrapeMarmiton.parse_ingredient ("farine") =
      ⟨"", "", "farine", "farine"⟩ := by
  refine ⟨?_, ?_, ?_, ?_, ?_, ?_⟩ <;> decide

/-- C1 counterexample: the tag normalizer strips only up to the first colon,
so a mention with two colons is not a fixed point of a single pass:
normalize("a:b:c") = "b:c" but normalize("b:c") = "c". -/
theorem C1_counterexample :
    MatchIngredients.normalize_ingredient_name
        (MatchIngredients.normalize_ingredient_name ("a:b:c")) ≠
      MatchIngredients.normalize_ingredient_name ("a:b:c") := by decide

/-- C8 counterexample: the cross-dataset linking normalizer deletes from the
first hyphen to the end of the string, so the second half of the compound
word does not survive: "chou-fleur" normalizes to "chou". -/
theorem C8_counterexample :
    LinkIngredients.normalize_ingredient_name ("chou-fleur") = "chou" ∧
    ("chou" : String) ≠ "chou fleur" := by
  exact ⟨by decide, by decide⟩

/-- C8 (amended): only the tag normalizer of match_ingredients.py replaces
hyphens and underscores by spaces, so "chou-fleur" becomes "chou fleur"
there; the cross-dataset linking variant instead deletes everything from the
first hyphen (whether or not preceded by whitespace), so "chou-fleur"
becomes "chou". -/
theorem C8_amended_hyphen_behaviour :
    MatchIngredients.normalize_ingredient_name ("chou-fleur") = "chou fleur" ∧
    MatchIngredients.normalize_ingredient_name ("pomme_de_terre") = "pomme de terre" ∧
    LinkIngredients.normalize_ingredient_name ("chou-fleur") = "chou" := by
  refine ⟨?_, ?_, ?_⟩ <;> decide

/-- C2 counterexample: a mention and a vocabulary entry with equal normalized
forms produce no record at all when the normalized mention is shorter than
2 characters — create_simple_mappings skips such mentions before the exact
pass. -/
theorem C2_counterexample :
    LinkIngredients.normalizeL ['a'] = ['a'] ∧
    [(['a'], 1)].lookup (LinkIngredients.normalizeL ['a']) = some 1 ∧
    LinkIngredients.process_off_tag [(['a'], 1)] ['a'] = none := by
  refine ⟨?_, ?_, ?_⟩ <;> decide

/-- C2 (amended): whenever the normalized mention has at least 2 characters
and is a key of the vocabulary index (i.e. equals the normalized name of a
vocabulary entry), create_simple_mappings emits the record
(tag, id, "exact", 1.0) from the exact pass, before any fuzzy matching. -/
theorem C2_exact_pass_emits_exact (m : List (List Char × Nat)) (tag : List Char)
    (mid : Nat) (hlen : 2 ≤ (LinkIngredients.normalizeL tag).length)
    (hlk : m.lookup (LinkIngredients.normalizeL tag) = some mid) :
    LinkIngredients.process_off_tag m tag =
      some ⟨tag, mid, "exact", 1⟩ := by
  unfold LinkIngredients.process_off_tag
  have h1 : ¬(LinkIngredients.normalizeL tag = [] ∨
      (LinkIngredients.normalizeL tag).length < 2) := by
    rintro (h | h)
    · rw [h] at hlen; exact absurd hlen (by decide)
    · omega
  rw [if_neg h1, hlk]

/-- C2 witness. -/
theorem C2_witness :
    2 ≤ (LinkIngredients.normalizeL ("ab".data)).length ∧
    [(("ab".data), 7)].lookup (LinkIngredients.normalizeL ("ab".data)) = some 7 ∧
    LinkIngredients.process_off_tag [(("ab".data), 7)] ("ab".data) =
      some ⟨"ab".data, 7, "exact", 1⟩ :=
  ⟨by decide, by decide, C2_exact_pass_emits_exact _ _ _ (by decide) (by decide)⟩

/-- C4 counterexample: the fuzzy pass emits the first candidate above the
0.75 threshold in candidate order, not the best-scoring one: with candidates
"ab cd xy" (id 1, score 0.8) and "cd ab" (id 2, score 1.0) for the mention
"ab cd", the emitted record carries id 1 and score 0.8 although a
better-scoring candidate is in the candidate set. -/
theorem C4_counterexample :
    LinkIngredients.process_off_tag
        [("ab cd xy".data, 1), ("cd ab".data, 2)] ("ab cd".data) =
      some ⟨"ab cd".data, 1, "fuzzy", mkRat 4 5⟩ ∧
    ("cd ab".data, 2) ∈
      LinkIngredients.top30 [("ab cd xy".data, 1), ("cd ab".data, 2)] ∧
    LinkIngredients.similarity_ratio
        (LinkIngredients.normalizeL ("ab cd".data)) ("cd ab".data) = 1 ∧
    mkRat 4 5 < (1 : Rat) := by
  refine ⟨?_, ?_, ?_, ?_⟩ <;> decide

/-- C4 (amended): when the exact pass fails (and the normalized mention is
long enough to be considered), the fuzzy pass scans the bounded candidate
set (the 30 entries with smallest ids) in order and emits, with method
"fuzzy", the first candidate whose similarity_ratio strictly exceeds 0.75,
carrying that candidate's score — not necessarily the best-scoring one. -/
theorem C4_fuzzy_pass_first_above_threshold (m : List (List Char × Nat))
    (tag : List Char) (hlen : 2 ≤ (LinkIngredients.normalizeL tag).length)
    (hnone : m.lookup (LinkIngredients.normalizeL tag) = none) :
    LinkIngredients.process_off_tag m tag =
      ((LinkIngredients.top30 m).find? (fun p =>
          decide (mkRat 3 4 <
            LinkIngredients.similarity_ratio (LinkIngredients.normalizeL tag) p.1))).map
        (fun p => ⟨tag, p.2, "fuzzy",
          LinkIngredients.similarity_ratio (LinkIngredients.normalizeL tag) p.1⟩) := by
  unfold LinkIngredients.process_off_tag
  have h1 : ¬(LinkIngredients.normalizeL tag = [] ∨
      (LinkIngredients.normalizeL tag).length < 2) := by
    rintro (h | h)
    · rw [h] at hlen; exact absurd hlen (by decide)
    · omega
  rw [if_neg h1, hnone]
  cases hf : (LinkIngredients.top30 m).find? (fun p =>
      decide (mkRat 3 4 <
        LinkIngredients.similarity_ratio (LinkIngredients.normalizeL tag) p.1)) <;>
    simp [hf]

/-- C4 witness. -/
theorem C4_witness :
    2 ≤ (LinkIngredients.normalizeL ("ab cd".data)).length ∧
    ([("ab cd xy".data, 1)].lookup (LinkIngredients.normalizeL ("ab cd".data)) =
      none) ∧
    LinkIngredients.process_off_tag [("ab cd xy".data, 1)] ("ab cd".data) =
      ((LinkIngredients.top30 [("ab cd xy".data, 1)]).find? (fun p =>
          decide (mkRat 3 4 <
            LinkIngredients.similarity_ratio
              (LinkIngredients.normalizeL ("ab cd".data)) p.1))).map
        (fun p => ⟨"ab cd".data, p.2, "fuzzy",
          LinkIngredients.similarity_ratio
            (LinkIngredients.normalizeL ("ab cd".data)) p.1⟩) :=
  ⟨by decide, by decide,
    C4_fuzzy_pass_first_above_threshold _ _ (by decide) (by decide)⟩

/-- C6 counterexample: similarity_ratio has no length minimum at all — the
pair ("de", "ade") has shorter length 2 < 4 yet scores the full substring
0.8. -/
theorem C6_counterexample :
    LinkIngredients.similarity_ratio ("de".data) ("ade".data) = mkRat 4 5 ∧
    min ("de".data).length ("ade".data).length < 4 := by
  exact ⟨by decide, by decide⟩

/-- C6 (amended): the 4-character minimum exists only in the product-tag
matcher of match_ingredients.py, and it is tested on the normalized
ingredient name (the vocabulary side of the pair, which may be the longer
side), not on the shorter of the two compared strings; a partial (0.8)
record there implies the ingredient name has at least 4 characters. -/
theorem C6_partial_requires_ingredient_len4 (tags : List (List Char))
    (ing : List Char)
    (h : MatchIngredients.match_one tags ing = some (mkRat 4 5, "partial")) :
    4 ≤ ing.length := by
  unfold MatchIngredients.match_one at h
  by_cases hc : tags.contains ing
  · rw [if_pos hc] at h
    exact absurd h (by decide)
  · rw [if_neg hc] at h
    cases hf : tags.find? (fun tag => isSubstr ing tag || isSubstr tag ing) with
    | none => rw [hf] at h; exact absurd h (by simp)
    | some t =>
      rw [hf] at h
      by_cases hl : 4 ≤ ing.length
      · exact hl
      · rw [if_neg hl] at h; exact absurd h (by simp)

/-- C6 witness. -/
theorem C6_witness :
    MatchIngredients.match_one [("tomates".data)] ("tomate".data) =
      some (mkRat 4 5, "partial") ∧
    4 ≤ ("tomate".data).length :=
  ⟨by decide,
    C6_partial_requires_ingredient_len4 [("tomates".data)] ("tomate".data)
      (by decide)⟩

/-- C9 counterexample: the normalizers do raise on non-string input — the
match_ingredients variant raises TypeError on a truthy non-string (the colon
membership test), and the link_ingredients variant raises AttributeError
even on None (its first operation is `name.lower()`). -/
theorem C9_counterexample :
    PyDyn.isOkB (PyDyn.miNormalizeDyn (PyDyn.PyVal.int 5)) = false ∧
    PyDyn.isOkB (PyDyn.liNormalizeDyn PyDyn.PyVal.none) = false := by
  exact ⟨by decide, by decide⟩

/-- C9 (amended): no exception is raised only on strings and (for the
match_ingredients variant) falsy values: the match_ingredients normalizer
returns a string for every string or falsy input, and the link_ingredients
normalizer returns a string for every string input. -/
theorem C9_no_exception_on_string_or_falsy (v : PyDyn.PyVal)
    (h : (∃ s, v = PyDyn.PyVal.str s) ∨ PyDyn.falsy v = true) :
    PyDyn.isOkB (PyDyn.miNormalizeDyn v) = true ∧
    ((∃ s, v = PyDyn.PyVal.str s) → PyDyn.isOkB (PyDyn.liNormalizeDyn v) = true) := by
  constructor
  · rcases h with ⟨s, rfl⟩ | hf
    · unfold PyDyn.miNormalizeDyn
      by_cases hfs : PyDyn.falsy (PyDyn.PyVal.str s)
      · rw [if_pos hfs]; rfl
      · rw [if_neg hfs]; rfl
    · unfold PyDyn.miNormalizeDyn
      rw [if_pos hf]; rfl
  · rintro ⟨s, rfl⟩; rfl

/-- C9 witness. -/
theorem C9_witness :
    ((∃ s, PyDyn.PyVal.str ("Tomate") = PyDyn.PyVal.str s) ∨
      PyDyn.falsy (PyDyn.PyVal.str ("Tomate")) = true) ∧
    PyDyn.isOkB (PyDyn.miNormalizeDyn (PyDyn.PyVal.str ("Tomate"))) = true :=
  ⟨Or.inl ⟨"Tomate", rfl⟩,
    (C9_no_exception_on_string_or_falsy _ (Or.inl ⟨"Tomate", rfl⟩)).1⟩

/-- C10: every record emitted by the product-tag matcher of
match_products_with_ingredients.py carries score 1.0, and its method is
"exact" exactly when the normalized tag is itself a key of the vocabulary
map — records from the substring fallback are labeled "partial" but carry
the same score 1.0. -/
theorem C10_score_constant_method_iff_key (m : List (List Char × Nat))
    (tag : List Char) (r : MatchProducts.ProductMatch)
    (h : MatchProducts.process_tag m tag = some r) :
    r.match_score = 1 ∧
      (r.match_method = "exact" ↔
        (m.lookup (MatchProducts.normalizeL tag)).isSome = true) := by
  unfold MatchProducts.process_tag at h
  by_cases hn : MatchProducts.normalizeL tag = []
  · rw [if_pos hn] at h; exact absurd h (by simp)
  · rw [if_neg hn] at h
    cases hi : MatchProducts.found_id m (MatchProducts.normalizeL tag) with
    | none => rw [hi] at h; exact absurd h (by simp)
    | some i =>
      rw [hi] at h
      dsimp only at h
      by_cases hz : i = 0
      · rw [if_pos hz] at h; exact absurd h (by simp)
      · rw [if_neg hz] at h
        have hr : r = ⟨i, 1,
            if (m.lookup (MatchProducts.normalizeL tag)).isSome then ("exact")
            else ("partial")⟩ := by
          cases h; rfl
        subst hr
        by_cases hk : (m.lookup (MatchProducts.normalizeL tag)).isSome
        · simp [hk]
        · simp [hk]

/-- C10 witness. -/
theorem C10_witness :
    MatchProducts.process_tag [("lait".data, 3)] ("fr:lait".data) =
      some ⟨3, 1, "exact"⟩ ∧
    (MatchProducts.ProductMatch.mk 3 1 ("exact")).match_score = 1 ∧
      ((MatchProducts.ProductMatch.mk 3 1 ("exact")).match_method = "exact" ↔
        ([("lait".data, 3)].lookup
          (MatchProducts.normalizeL ("fr:lait".data))).isSome = true) :=
  ⟨by decide, C10_score_constant_method_iff_key _ _ _ (by decide)⟩

namespace MatchRecipes

theorem dedupeAux_filter_of_mem (l : List RecipeMatch) :
    ∀ (seen : List (Nat × Nat)) (k : Nat × Nat), k ∈ seen →
      (dedupeAux l seen).filter (fun r => dedupKey r == k) = [] := by
  induction l with
  | nil => intro seen k _; rfl
  | cons r rest ih =>
    intro seen k hk
    by_cases hm : dedupKey r ∈ seen
    · simp only [dedupeAux, if_pos hm]
      exact ih seen k hk
    · have hne : ¬(dedupKey r == k) = true := by
        simp only [beq_iff_eq]
        intro he; exact hm (he ▸ hk)
      simp only [dedupeAux, if_neg hm, List.filter_cons, hne, if_false]
      exact ih _ k (List.mem_cons_of_mem _ hk)

theorem dedupeAux_filter_length (l : List RecipeMatch) :
    ∀ (seen : List (Nat × Nat)) (k : Nat × Nat),
      ((dedupeAux l seen).filter (fun r => dedupKey r == k)).length ≤ 1 := by
  induction l with
  | nil => intro seen k; simp [dedupeAux]
  | cons r rest ih =>
    intro seen k
    by_cases hm : dedupKey r ∈ seen
    · simp only [dedupeAux, if_pos hm]
      exact ih seen k
    · simp only [dedupeAux, if_neg hm, List.filter_cons]
      by_cases he : (dedupKey r == k) = true
      · have hk : k ∈ dedupKey r :: seen := by
          rw [beq_iff_eq] at he
          exact he ▸ List.mem_cons_self _ _
        simp only [he, if_true, List.length_cons,
          dedupeAux_filter_of_mem rest _ k hk, List.length_nil]
        omega
      · simp only [he, if_false]
        exact ih _ k

theorem dedupeAux_find_of_not_mem (l : List RecipeMatch) :
    ∀ (seen : List (Nat × Nat)) (k : Nat × Nat), k ∉ seen →
      (dedupeAux l seen).find? (fun r => dedupKey r == k) =
        l.find? (fun r => dedupKey r == k) := by
  induction l with
  | nil => intro seen k _; rfl
  | cons r rest ih =>
    intro seen k hk
    by_cases hm : dedupKey r ∈ seen
    · have hne : ¬(dedupKey r == k) = true := by
        simp only [beq_iff_eq]
        intro he; exact hk (he ▸ hm)
      rw [@List.find?_cons_of_neg _ (fun x => dedupKey x == k) r rest hne]
      simp only [dedupeAux, if_pos hm]
      exact ih seen k hk
    · simp only [dedupeAux, if_neg hm]
      by_cases he : (dedupKey r == k) = true
      · rw [@List.find?_cons_of_pos _ (fun x => dedupKey x == k) r
            (dedupeAux rest (dedupKey r :: seen)) he,
          @List.find?_cons_of_pos _ (fun x => dedupKey x == k) r rest he]
      · rw [@List.find?_cons_of_neg _ (fun x => dedupKey x == k) r
            (dedupeAux rest (dedupKey r :: seen)) he,
          @List.find?_cons_of_neg _ (fun x => dedupKey x == k) r rest he]
        have hk2 : k ∉ dedupKey r :: seen := by
          intro hmem
          rcases List.mem_cons.1 hmem with h1 | h1
          · rw [beq_iff_eq] at he; exact he h1.symm
          · exact hk h1
        exact ih _ k hk2

end MatchRecipes

/-- C7: for every input list of match records, including lists with
duplicates, the deduplication performed before the bulk insert of
match_recipes_with_ingredients.py leaves at most one record per
(recipe, ingredient) pair, and the record kept for each pair is the
first-seen entry of the input list. -/
theorem C7_dedupe_keeps_at_most_one_first_seen
    (l : List MatchRecipes.RecipeMatch) :
    (∀ k : Nat × Nat,
      ((MatchRecipes.dedupe_matches l).filter
        (fun r => MatchRecipes.dedupKey r == k)).length ≤ 1) ∧
    (∀ k : Nat × Nat,
      (MatchRecipes.dedupe_matches l).find?
          (fun r => MatchRecipes.dedupKey r == k) =
        l.find? (fun r => MatchRecipes.dedupKey r == k)) :=
  ⟨fun k => MatchRecipes.dedupeAux_filter_length l [] k,
   fun k => MatchRecipes.dedupeAux_find_of_not_mem l [] k (by simp)⟩

/-- C7 witness. -/
theorem C7_witness :
    ((MatchRecipes.dedupe_matches
        [⟨1, 2, "1", "g", "a"⟩, ⟨1, 2, "3", "kg", "b"⟩, ⟨2, 2, "", "", "c"⟩]).filter
      (fun r => MatchRecipes.dedupKey r == (1, 2))).length ≤ 1 ∧
    (MatchRecipes.dedupe_matches
        [⟨1, 2, "1", "g", "a"⟩, ⟨1, 2, "3", "kg", "b"⟩, ⟨2, 2, "", "", "c"⟩]).find?
        (fun r => MatchRecipes.dedupKey r == (1, 2)) =
      [(⟨1, 2, "1", "g", "a"⟩ : MatchRecipes.RecipeMatch), ⟨1, 2, "3", "kg", "b"⟩,
        ⟨2, 2, "", "", "c"⟩].find? (fun r => MatchRecipes.dedupKey r == (1, 2)) :=
  ⟨(C7_dedupe_keeps_at_most_one_first_seen _).1 (1, 2),
   (C7_dedupe_keeps_at_most_one_first_seen _).2 (1, 2)⟩

/-- C3 counterexample: substring containment does not always score at least
the word-overlap-only policy: for "x y" against "x y x y" the substring rule
caps the score at 0.8 while the word sets coincide and pure Jaccard gives
1.0. -/
theorem C3_counterexample :
    LinkIngredients.similarity_ratio ("x y".data) ("x y x y".data) <
      SpecModel.word_overlap_score ("x y".data) ("x y x y".data) := by decide

namespace SpecModel

theorem word_overlap_score_le_one (a b : List Char) :
    word_overlap_score a b ≤ 1 := by
  unfold word_overlap_score
  dsimp only
  split_ifs with h
  · norm_num
  · rw [Rat.mkRat_eq_div]
    have hsub : ((wordsOf a).toFinset ∩ (wordsOf b).toFinset) ⊆
        ((wordsOf a).toFinset ∪ (wordsOf b).toFinset) :=
      fun x hx => Finset.mem_union_left _ (Finset.mem_of_mem_inter_left hx)
    have hcard := Finset.card_le_card hsub
    have hpos : (0 : Nat) <
        ((wordsOf a).toFinset ∪ (wordsOf b).toFinset).card := by
      rcases (not_or.1 h) with ⟨ha, _⟩
      have : ((wordsOf a).toFinset).Nonempty :=
        Finset.nonempty_iff_ne_empty.2 ha
      exact Finset.card_pos.2 (this.mono (Finset.subset_union_left))
    rw [div_le_one (by exact_mod_cast hpos)]
    exact_mod_cast hcard

theorem word_overlap_score_empty_left (b : List Char) :
    word_overlap_score [] b = 0 := by
  unfold word_overlap_score
  simp [wordsOf, wordsAux]

theorem word_overlap_score_empty_right (a : List Char) :
    word_overlap_score a [] = 0 := by
  unfold word_overlap_score
  simp [wordsOf, wordsAux]

end SpecModel

/-- C3 (amended): the substring-containment policy scores at least the
word-overlap-only (pure Jaccard) policy on every pair whose Jaccard score
does not exceed 0.8; without that proviso the claim fails, because the 0.8
substring rule can cap the score below a higher Jaccard value (see the
counterexample). -/
theorem C3_substring_policy_ge_word_overlap (a b : List Char)
    (h : SpecModel.word_overlap_score a b ≤ mkRat 4 5) :
    SpecModel.word_overlap_score a b ≤ LinkIngredients.similarity_ratio a b := by
  unfold LinkIngredients.similarity_ratio
  dsimp only
  split_ifs with h0 h1 h2 h3 h4
  · rcases h0 with h0 | h0 <;> subst h0
    · rw [SpecModel.word_overlap_score_empty_left]
    · rw [SpecModel.word_overlap_score_empty_right]
  · exact SpecModel.word_overlap_score_le_one a b
  · exact h
  · unfold SpecModel.word_overlap_score
    dsimp only
    rw [if_pos h3]
  · unfold SpecModel.word_overlap_score
    dsimp only
    rw [if_neg h3]
  · exfalso
    apply h4
    rcases (not_or.1 h3) with ⟨ha, _⟩
    have : ((wordsOf a).toFinset).Nonempty :=
      Finset.nonempty_iff_ne_empty.2 ha
    exact Finset.card_pos.2 (this.mono (Finset.subset_union_left))

/-- C3 witness. -/
theorem C3_witness :
    SpecModel.word_overlap_score ("a b c".data) ("a d e".data) ≤ mkRat 4 5 ∧
    SpecModel.word_overlap_score ("a b c".data) ("a d e".data) ≤
      LinkIngredients.similarity_ratio ("a b c".data) ("a d e".data) :=
  ⟨by decide, C3_substring_policy_ge_word_overlap _ _ (by decide)⟩

namespace PyStr

theorem contains_iff_mem {c : Char} {l : List Char} : l.contains c = true ↔ c ∈ l := by
  simp [List.contains_eq_any_beq, List.any_eq_true, beq_iff_eq, eq_comm]

theorem lookup_some_mem_snd {α β : Type} [BEq α] :
    ∀ (l : List (α × β)) (a : α) (b : β),
      l.lookup a = some b → b ∈ l.map Prod.snd := by
  intro l
  induction l with
  | nil => intro a b hl; exact absurd hl (by simp [List.lookup])
  | cons p rest ih =>
    intro a b hl
    obtain ⟨k, v⟩ := p
    rw [List.lookup_cons] at hl
    cases hbeq : a == k with
    | true =>
      rw [hbeq] at hl
      simp only [Option.some.injEq] at hl
      subst hl
      exact List.mem_cons_self _ _
    | false =>
      rw [hbeq] at hl
      exact List.mem_cons_of_mem _ (ih a b hl)

theorem snd_values_not_keys :
    ∀ v ∈ lowerPairs.map Prod.snd, lowerPairs.lookup v = none := by decide

theorem toLowerFr_idem (c : Char) : toLowerFr (toLowerFr c) = toLowerFr c := by
  cases h : lowerPairs.lookup c with
  | none =>
    have h1 : toLowerFr c = c := by unfold toLowerFr; rw [h]; rfl
    rw [h1]; exact h1
  | some v =>
    have h1 : toLowerFr c = v := by unfold toLowerFr; rw [h]; rfl
    have h2 : lowerPairs.lookup v = none :=
      snd_values_not_keys v (lookup_some_mem_snd _ _ _ h)
    rw [h1]; unfold toLowerFr; rw [h2]; rfl

theorem eq_of_toLowerFr_eq_not_snd {c d : Char}
    (hd : d ∉ lowerPairs.map Prod.snd) (h : toLowerFr c = d) : c = d := by
  cases hl : lowerPairs.lookup c with
  | none =>
    have h1 : toLowerFr c = c := by unfold toLowerFr; rw [hl]; rfl
    rw [h1] at h; exact h
  | some v =>
    have h1 : toLowerFr c = v := by unfold toLowerFr; rw [hl]; rfl
    rw [h1] at h; subst h
    exact absurd (lookup_some_mem_snd _ _ _ hl) hd

theorem wordsAux_nil (cur : List Char) :
    wordsAux [] cur = if cur = [] then [] else [cur.reverse] := rfl

theorem wordsAux_cons (a : Char) (rest cur : List Char) :
    wordsAux (a :: rest) cur =
      if isSpaceCh a then
        (if cur = [] then wordsAux rest [] else cur.reverse :: wordsAux rest [])
      else wordsAux rest (a :: cur) := rfl

theorem wordsAux_allspace : ∀ (sp cur : List Char),
    (∀ c ∈ sp, isSpaceCh c = true) →
    wordsAux sp cur = if cur = [] then [] else [cur.reverse] := by
  intro sp
  induction sp with
  | nil => intro cur _; rfl
  | cons a rest ih =>
    intro cur hsp
    have ha : isSpaceCh a = true := hsp a (List.mem_cons_self _ _)
    rw [wordsAux_cons, if_pos ha,
      ih [] (fun c hc2 => hsp c (List.mem_cons_of_mem _ hc2))]
    by_cases hc : cur = []
    · rw [if_pos hc, if_pos hc]; rfl
    · rw [if_neg hc, if_neg hc]; rfl

theorem wordsAux_append_spaces : ∀ (l sp cur : List Char),
    (∀ c ∈ sp, isSpaceCh c = true) →
    wordsAux (l ++ sp) cur = wordsAux l cur := by
  intro l
  induction l with
  | nil =>
    intro sp cur hsp
    rw [List.nil_append, wordsAux_allspace sp cur hsp, wordsAux_nil]
  | cons a rest ih =>
    intro sp cur hsp
    rw [List.cons_append, wordsAux_cons, wordsAux_cons]
    by_cases ha : isSpaceCh a
    · rw [if_pos ha, if_pos ha, ih sp [] hsp]
    · rw [if_neg ha, if_neg ha, ih sp (a :: cur) hsp]

theorem wordsAux_dropLead : ∀ l : List Char,
    wordsAux (l.dropWhile isSpaceCh) [] = wordsAux l [] := by
  intro l
  induction l with
  | nil => rfl
  | cons a rest ih =>
    by_cases ha : isSpaceCh a
    · rw [List.dropWhile_cons, if_pos ha, ih, wordsAux_cons, if_pos ha, if_pos rfl]
    · rw [List.dropWhile_cons, if_neg ha]

theorem mem_wordsAux : ∀ (l cur w : List Char),
    (∀ c ∈ cur, isSpaceCh c = false) → w ∈ wordsAux l cur →
    w ≠ [] ∧ ∀ c ∈ w, isSpaceCh c = false ∧ (c ∈ l ∨ c ∈ cur) := by
  intro l
  induction l with
  | nil =>
    intro cur w hcur hw
    rw [wordsAux_nil] at hw
    by_cases hc : cur = []
    · rw [if_pos hc] at hw; exact absurd hw (List.not_mem_nil w)
    · rw [if_neg hc] at hw
      have hw2 : w = cur.reverse := List.mem_singleton.1 hw
      subst hw2
      refine ⟨by simpa using hc, fun c hcw => ?_⟩
      have hcc : c ∈ cur := List.mem_reverse.1 hcw
      exact ⟨hcur c hcc, Or.inr hcc⟩
  | cons a rest ih =>
    intro cur w hcur hw
    rw [wordsAux_cons] at hw
    by_cases ha : isSpaceCh a
    · rw [if_pos ha] at hw
      by_cases hc : cur = []
      · rw [if_pos hc] at hw
        obtain ⟨hne, hprop⟩ := ih [] w (by simp) hw
        refine ⟨hne, fun c hcw => ?_⟩
        obtain ⟨hsp, hmem⟩ := hprop c hcw
        rcases hmem with hm | hm
        · exact ⟨hsp, Or.inl (List.mem_cons_of_mem _ hm)⟩
        · exact absurd hm (List.not_mem_nil c)
      · rw [if_neg hc] at hw
        rcases List.mem_cons.1 hw with hw1 | hw1
        · subst hw1
          refine ⟨by simpa using hc, fun c hcw => ?_⟩
          have hcc : c ∈ cur := List.mem_reverse.1 hcw
          exact ⟨hcur c hcc, Or.inr hcc⟩
        · obtain ⟨hne, hprop⟩ := ih [] w (by simp) hw1
          refine ⟨hne, fun c hcw => ?_⟩
          obtain ⟨hsp, hmem⟩ := hprop c hcw
          rcases hmem with hm | hm
          · exact ⟨hsp, Or.inl (List.mem_cons_of_mem _ hm)⟩
          · exact absurd hm (List.not_mem_nil c)
    · rw [if_neg ha] at hw
      have hcur2 : ∀ c ∈ a :: cur, isSpaceCh c = false := by
        intro c hc
        rcases List.mem_cons.1 hc with h1 | h1
        · subst h1; exact Bool.eq_false_iff.2 ha
        · exact hcur c h1
      obtain ⟨hne, hprop⟩ := ih (a :: cur) w hcur2 hw
      refine ⟨hne, fun c hcw => ?_⟩
      obtain ⟨hsp, hmem⟩ := hprop c hcw
      rcases hmem with hm | hm
      · exact ⟨hsp, Or.inl (List.mem_cons_of_mem _ hm)⟩
      · rcases List.mem_cons.1 hm with h1 | h1
        · subst h1; exact ⟨hsp, Or.inl (List.mem_cons_self _ _)⟩
        · exact ⟨hsp, Or.inr h1⟩

theorem wordsAux_front_nonspace : ∀ (w l cur : List Char),
    (∀ c ∈ w, isSpaceCh c = false) →
    wordsAux (w ++ l) cur = wordsAux l (w.reverse ++ cur) := by
  intro w
  induction w with
  | nil => intro l cur _; simp
  | cons a w2 ih =>
    intro l cur hw
    have ha : isSpaceCh a = false := hw a (List.mem_cons_self _ _)
    rw [List.cons_append, wordsAux_cons, if_neg (by simp [ha]),
      ih l (a :: cur) (fun c hc => hw c (List.mem_cons_of_mem _ hc))]
    congr 1
    rw [List.reverse_cons, List.append_assoc]
    rfl

theorem wordsOf_joinWords : ∀ (ws : List (List Char)),
    (∀ w ∈ ws, w ≠ [] ∧ ∀ c ∈ w, isSpaceCh c = false) →
    wordsOf (joinWords ws) = ws := by
  intro ws
  induction ws with
  | nil => intro _; rfl
  | cons w ws2 ih =>
    intro h
    obtain ⟨hw, hwc⟩ := h w (List.mem_cons_self _ _)
    cases ws2 with
    | nil =>
      show wordsAux (joinWords [w]) [] = [w]
      rw [show joinWords [w] = w from rfl]
      have h2 := wordsAux_front_nonspace w [] [] hwc
      rw [List.append_nil] at h2
      rw [h2, wordsAux_nil, if_neg (by simpa using hw)]
      simp
    | cons w2 ws3 =>
      show wordsAux (joinWords (w :: w2 :: ws3)) [] = w :: w2 :: ws3
      rw [show joinWords (w :: w2 :: ws3) = w ++ ' ' :: joinWords (w2 :: ws3)
        from rfl]
      rw [wordsAux_front_nonspace w _ [] hwc, wordsAux_cons,
        if_pos (by decide : isSpaceCh ' ' = true),
        if_neg (by simpa using hw)]
      rw [List.append_nil, List.reverse_reverse]
      have ih2 := ih (fun x hx => h x (List.mem_cons_of_mem _ hx))
      exact congrArg (w :: ·) ih2

theorem wordsOf_dropTrail (x : List Char) :
    wordsOf (dropTrailWs x) = wordsOf x := by
  have hdecomp : dropTrailWs x ++ (x.reverse.takeWhile isSpaceCh).reverse = x := by
    unfold dropTrailWs
    rw [← List.reverse_append, List.takeWhile_append_dropWhile, List.reverse_reverse]
  have hsp : ∀ c ∈ (x.reverse.takeWhile isSpaceCh).reverse, isSpaceCh c = true := by
    intro c hc
    exact List.mem_takeWhile_imp (List.mem_reverse.1 hc)
  conv_rhs => rw [← hdecomp]
  exact (wordsAux_append_spaces _ _ [] hsp).symm

theorem wordsOf_stripWs (l : List Char) : wordsOf (stripWs l) = wordsOf l := by
  show wordsOf (dropTrailWs (dropLeadWs l)) = wordsOf l
  rw [wordsOf_dropTrail]
  exact wordsAux_dropLead l

theorem mem_joinWords : ∀ (ws : List (List Char)) (c : Char),
    c ∈ joinWords ws → c = ' ' ∨ ∃ w ∈ ws, c ∈ w := by
  intro ws
  induction ws with
  | nil => intro c hc; exact absurd hc (List.not_mem_nil c)
  | cons w ws2 ih =>
    intro c hc
    cases ws2 with
    | nil => exact Or.inr ⟨w, List.mem_cons_self _ _, hc⟩
    | cons w2 ws3 =>
      rw [show joinWords (w :: w2 :: ws3) = w ++ ' ' :: joinWords (w2 :: ws3)
        from rfl] at hc
      rcases List.mem_append.1 hc with h1 | h1
      · exact Or.inr ⟨w, List.mem_cons_self _ _, h1⟩
      · rcases List.mem_cons.1 h1 with h2 | h2
        · exact Or.inl h2
        · rcases ih c h2 with h3 | ⟨w3, hw3, hcw3⟩
          · exact Or.inl h3
          · exact Or.inr ⟨w3, List.mem_cons_of_mem _ hw3, hcw3⟩

theorem map_id_of_fixed (f : Char → Char) : ∀ (l : List Char),
    (∀ c ∈ l, f c = c) → l.map f = l := by
  intro l
  induction l with
  | nil => intro _; rfl
  | cons a rest ih =>
    intro h
    rw [List.map_cons, h a (List.mem_cons_self _ _),
      ih (fun c hc => h c (List.mem_cons_of_mem _ hc))]

theorem mem_of_mem_stripWs {c : Char} {l : List Char} (h : c ∈ stripWs l) :
    c ∈ l := by
  have h1 : c ∈ (dropLeadWs l).reverse.dropWhile isSpaceCh :=
    List.mem_reverse.1 h
  have h2 : c ∈ (dropLeadWs l).reverse :=
    List.Sublist.mem h1 (List.dropWhile_sublist _)
  have h3 : c ∈ dropLeadWs l := List.mem_reverse.1 h2
  exact List.Sublist.mem h3 (List.dropWhile_sublist _)

theorem count_afterFirst_colon : ∀ (l : List Char), ':' ∈ l →
    (afterFirst ':' l).count ':' + 1 = l.count ':' := by
  intro l
  induction l with
  | nil => intro h; exact absurd h (List.not_mem_nil _)
  | cons a rest ih =>
    intro h
    by_cases ha : a = ':'
    · subst ha
      have heq : afterFirst ':' (':' :: rest) = rest := by
        unfold afterFirst
        rw [List.dropWhile_cons, if_neg (by simp)]
        rfl
      rw [heq, List.count_cons]
      simp
    · have heq : afterFirst ':' (a :: rest) = afterFirst ':' rest := by
        unfold afterFirst
        rw [List.dropWhile_cons, if_pos (by simp [ha])]
      have hmem : ':' ∈ rest := by
        rcases List.mem_cons.1 h with h1 | h1
        · exact absurd h1.symm ha
        · exact h1
      rw [heq, List.count_cons, ih hmem]
      simp [ha]

theorem not_mem_afterFirst_colon {l : List Char} (h : l.count ':' ≤ 1)
    (hm : ':' ∈ l) : ':' ∉ afterFirst ':' l := by
  have h1 := count_afterFirst_colon l hm
  have h2 : 0 < l.count ':' := List.count_pos_iff.2 hm
  have h3 : (afterFirst ':' l).count ':' = 0 := by omega
  exact List.count_eq_zero.1 h3

end PyStr

namespace MatchIngredients

/-- A string that is a single-space join of nonempty, space-free words whose
characters are lowercase-fixed and contain no colon, dash or underscore is a
fixed point of the tag normalizer. -/
theorem normalizeL_fixed_of_canonical (ws : List (List Char))
    (hws : ∀ w ∈ ws, w ≠ [] ∧ ∀ c ∈ w, isSpaceCh c = false)
    (hchar : ∀ c ∈ joinWords ws, toLowerFr c = c ∧ c ≠ ':' ∧ c ≠ '-' ∧ c ≠ '_') :
    normalizeL (joinWords ws) = joinWords ws := by
  by_cases hnil : joinWords ws = []
  · rw [hnil]; rfl
  · unfold normalizeL
    rw [if_neg hnil]
    dsimp only
    have hnc : (joinWords ws).contains ':' = false := by
      cases hb : (joinWords ws).contains ':' with
      | false => rfl
      | true =>
        exfalso
        exact (hchar ':' (contains_iff_mem.1 hb)).2.1 rfl
    rw [hnc, if_neg (by simp)]
    rw [map_id_of_fixed toLowerFr _ (fun c hc => (hchar c hc).1)]
    have hdash : (stripWs (joinWords ws)).map
        (fun c => if c = '-' || c = '_' then ' ' else c) =
        stripWs (joinWords ws) := by
      apply map_id_of_fixed
      intro c hc
      have hcc := hchar c (mem_of_mem_stripWs hc)
      have hcond : ¬(c = '-' || c = '_') = true := by
        simp only [Bool.or_eq_true, decide_eq_true_eq]
        rintro (h1 | h1)
        · exact hcc.2.2.1 h1
        · exact hcc.2.2.2 h1
      simp only [if_neg hcond]
    rw [hdash, wordsOf_stripWs, wordsOf_joinWords ws hws]

/-- Idempotence of the tag normalizer on inputs with at most one colon (the
list-level statement). -/
theorem normalizeL_idem (l : List Char) (h : l.count ':' ≤ 1) :
    normalizeL (normalizeL l) = normalizeL l := by
  by_cases hl : l = []
  · subst hl; rfl
  · have hexp : normalizeL l =
        joinWords (wordsOf ((stripWs
          ((if l.contains ':' then afterFirst ':' l else l).map toLowerFr)).map
          (fun c => if c = '-' || c = '_' then ' ' else c))) := by
      unfold normalizeL
      rw [if_neg hl]
    set l1 := if l.contains ':' then afterFirst ':' l else l with hl1
    have hcol : ':' ∉ l1 := by
      rw [hl1]
      by_cases hc : l.contains ':'
      · rw [if_pos hc]
        exact not_mem_afterFirst_colon h (contains_iff_mem.1 hc)
      · rw [if_neg hc]
        intro hm
        exact hc (contains_iff_mem.2 hm)
    set l3 := (stripWs (l1.map toLowerFr)).map
      (fun c => if c = '-' || c = '_' then ' ' else c) with hl3
    have hws : ∀ w ∈ wordsOf l3, w ≠ [] ∧ ∀ c ∈ w, isSpaceCh c = false := by
      intro w hw
      obtain ⟨hne, hp⟩ := mem_wordsAux l3 [] w (by simp) hw
      exact ⟨hne, fun c hc => (hp c hc).1⟩
    have hchar : ∀ c ∈ joinWords (wordsOf l3),
        toLowerFr c = c ∧ c ≠ ':' ∧ c ≠ '-' ∧ c ≠ '_' := by
      intro c hc
      rcases mem_joinWords _ c hc with hsp | ⟨w, hw, hcw⟩
      · subst hsp
        exact ⟨by decide, by decide, by decide, by decide⟩
      · obtain ⟨_, hp⟩ := mem_wordsAux l3 [] w (by simp) hw
        obtain ⟨hnsp, hml3⟩ := hp c hcw
        have hml3' : c ∈ l3 := by
          rcases hml3 with h1 | h1
          · exact h1
          · exact absurd h1 (List.not_mem_nil c)
        rw [hl3] at hml3'
        obtain ⟨c2, hc2mem, hc2eq⟩ := List.mem_map.1 hml3'
        by_cases hdash : (c2 = '-' || c2 = '_') = true
        · rw [if_pos hdash] at hc2eq
          exfalso
          rw [← hc2eq] at hnsp
          exact absurd hnsp (by decide)
        · rw [if_neg hdash] at hc2eq
          subst hc2eq
          simp only [Bool.or_eq_true, decide_eq_true_eq, not_or] at hdash
          obtain ⟨c1, hc1mem, hc1eq⟩ := List.mem_map.1 (mem_of_mem_stripWs hc2mem)
          refine ⟨?_, ?_, hdash.1, hdash.2⟩
          · rw [← hc1eq, toLowerFr_idem]
          · intro hceq
            have hc1c : c1 = ':' :=
              eq_of_toLowerFr_eq_not_snd (by decide) (hc1eq.trans hceq)
            exact hcol (hc1c ▸ hc1mem)
    rw [hexp]
    exact normalizeL_fixed_of_canonical (wordsOf l3) hws hchar

end MatchIngredients

/-- C1 (amended): the tag normalizer is idempotent on every string containing
at most one colon; for a string with two or more colons a second pass strips
a further tag prefix (see the counterexample), so full idempotence fails. -/
theorem C1_normalize_idempotent_of_at_most_one_colon (s : String)
    (h : s.data.count ':' ≤ 1) :
    MatchIngredients.normalize_ingredient_name
        (MatchIngredients.normalize_ingredient_name s) =
      MatchIngredients.normalize_ingredient_name s := by
  unfold MatchIngredients.normalize_ingredient_name
  exact congrArg String.mk (MatchIngredients.normalizeL_idem s.data h)

/-- C1 witness. -/
theorem C1_witness :
    ("en:Whole-Milk ").data.count ':' ≤ 1 ∧
    MatchIngredients.normalize_ingredient_name
        (MatchIngredients.normalize_ingredient_name ("en:Whole-Milk ")) =
      MatchIngredients.normalize_ingredient_name ("en:Whole-Milk ") :=
  ⟨by decide, C1_normalize_idempotent_of_at_most_one_colon _ (by decide)⟩
